import Mathlib

/-
Verification development for the `fermi` Monte Carlo estimation tool
(src/fermi.py).  The pipeline is

    parse_expression  →  generate_samples  →  evaluate_expression  →  statistics

and each stage is embedded below, translated from the Python source.

Modelling conventions:

* Numeric literals are parsed into exact rationals (`ℚ`); distribution
  parameters and samples live in `ℝ` (the idealisation of the source's
  IEEE doubles).
* `re.sub(token_pattern, ...)` scanning is embedded as a left-to-right
  maximal-munch scanner.  For the concrete pattern
  `(number\s*,\s*number|number)` this is equivalent to Python's
  backtracking search: after a maximal number match, the residue never
  starts with `,` or whitespace when a shorter match of the same number
  would (the residue of a shortened number match always starts with a
  digit, `.`, `e`, `E`, `+` or `-`), so backtracking into a number or
  into `\s*` can never turn a failed alternative into a successful one.
* Randomness is an explicit oracle argument: `numpy.random.lognormal`
  returns `exp (μ + σ·Z)` for a standard normal `Z`, and
  `scipy.stats.truncnorm.rvs lower upper loc scale` returns
  `loc + scale·T` for a standardised draw `T ∈ [lower, upper]`;
  the oracle supplies the streams `Z` and `T`.
-/

namespace Fermi

/-! ### Character classes -/

/-- Python `\s` (the ASCII whitespace characters; the expressions this tool
receives are ASCII). -/
def isPySpace (c : Char) : Bool :=
  c == ' ' || c == '\t' || c == '\n' || c == '\r' || c == '\x0b' || c == '\x0c'

/-! ### The numeric-literal grammar of `parse_expression`

`number_pattern = r'-?\d+(?:\.\d+)?(?:[eE][-+]?\d+)?'`
`range_pattern  = rf'({number_pattern})\s*,\s*({number_pattern})'`
`token_pattern  = rf'({range_pattern}|{number_pattern})'`

Each matcher below returns the length (in characters) of the maximal match
of the corresponding regex fragment at the head of the input. -/

/-- Length matched by `\d+` at the head (0 when it does not match). -/
def digitsLen (cs : List Char) : ℕ := (cs.takeWhile Char.isDigit).length

/-- Length matched by the optional fraction `(?:\.\d+)?` at the head. -/
def fracLen (cs : List Char) : ℕ :=
  match cs with
  | '.' :: rest => if digitsLen rest = 0 then 0 else 1 + digitsLen rest
  | _ => 0

/-- Length matched by the optional exponent `(?:[eE][-+]?\d+)?` at the head. -/
def expLen (cs : List Char) : ℕ :=
  match cs with
  | c :: rest =>
    if c = 'e' ∨ c = 'E' then
      match rest with
      | s :: rest2 =>
        if s = '+' ∨ s = '-' then
          if digitsLen rest2 = 0 then 0 else 2 + digitsLen rest2
        else
          if digitsLen rest = 0 then 0 else 1 + digitsLen rest
      | [] => 0
    else 0
  | [] => 0

/-- Length matched by the unsigned part `\d+(?:\.\d+)?(?:[eE][-+]?\d+)?`
at the head, or `none` when there is no match. -/
def numLenCore (cs : List Char) : Option ℕ :=
  if digitsLen cs = 0 then none
  else
    some (digitsLen cs + fracLen (cs.drop (digitsLen cs)) +
      expLen (cs.drop (digitsLen cs + fracLen (cs.drop (digitsLen cs)))))

/-- Length matched by `number_pattern` at the head, or `none`. -/
def numLen (cs : List Char) : Option ℕ :=
  match cs with
  | '-' :: rest => (numLenCore rest).map (· + 1)
  | cs => numLenCore cs

/-- Length matched by `\s*` at the head. -/
def spacesLen (cs : List Char) : ℕ := (cs.takeWhile isPySpace).length

/-- Match of `range_pattern` at the head: the lengths of the first number,
of the separator `\s*,\s*`, and of the second number. -/
def rangeLen (cs : List Char) : Option (ℕ × ℕ × ℕ) :=
  match numLen cs with
  | none => none
  | some ka =>
    match (cs.drop ka).drop (spacesLen (cs.drop ka)) with
    | ',' :: _ =>
      match numLen ((cs.drop ka).drop (spacesLen (cs.drop ka) + 1 +
          spacesLen ((cs.drop ka).drop (spacesLen (cs.drop ka) + 1)))) with
      | none => none
      | some kb => some (ka, spacesLen (cs.drop ka) + 1 +
          spacesLen ((cs.drop ka).drop (spacesLen (cs.drop ka) + 1)), kb)
    | _ => none

theorem numLenCore_pos {cs : List Char} {k : ℕ} (h : numLenCore cs = some k) : 0 < k := by
  unfold numLenCore at h
  by_cases hd : digitsLen cs = 0
  · simp [hd] at h
  · simp only [hd, if_false, Option.some.injEq] at h
    omega

theorem numLen_pos {cs : List Char} {k : ℕ} (h : numLen cs = some k) : 0 < k := by
  unfold numLen at h
  split at h
  · rename_i rest
    rcases ho : numLenCore rest with _ | k'
    · rw [ho] at h; exact absurd h (by simp)
    · rw [ho] at h
      simp only [Option.map_some', Option.some.injEq] at h
      omega
  · exact numLenCore_pos h

theorem rangeLen_pos {cs : List Char} {ka km kb : ℕ}
    (h : rangeLen cs = some (ka, km, kb)) : 0 < ka + km + kb := by
  unfold rangeLen at h
  rcases hn : numLen cs with _ | k <;> rw [hn] at h
  · exact absurd h (by simp)
  · simp only at h
    split at h
    · split at h
      · exact absurd h (by simp)
      · simp only [Option.some.injEq, Prod.mk.injEq] at h
        have hk := numLen_pos hn
        omega
    · exact absurd h (by simp)

/-! ### The scanner (the `re.sub(token_pattern, replace_token, expr)` loop) -/

/-- One scanned piece of the input: an unmatched character, a matched scalar
token (its text), or a matched range token (first number, separator, second
number). -/
inductive Item where
  | raw : Char → Item
  | num : List Char → Item
  | range : List Char → List Char → List Char → Item
deriving DecidableEq

/-- The exact source text the item covers. -/
def Item.sourceText : Item → List Char
  | .raw c => [c]
  | .num t => t
  | .range a m b => a ++ m ++ b

def Item.isRaw : Item → Bool
  | .raw _ => true
  | _ => false

/-- Left-to-right scan of the expression, replacing each leftmost match of
`token_pattern` (range alternative first, as in the regex) and copying
unmatched characters through.  Structural recursion on a fuel counter;
every step consumes at least one character, so fuel `cs.length` is enough
(`scanItemsGo_fuel` below makes the fuel irrelevant once sufficient). -/
def scanItemsGo : ℕ → List Char → List Item
  | _, [] => []
  | 0, _ :: _ => []
  | fuel + 1, c :: rest =>
    match rangeLen (c :: rest) with
    | some (ka, km, kb) =>
      .range ((c :: rest).take ka) (((c :: rest).drop ka).take km)
          (((c :: rest).drop (ka + km)).take kb) ::
        scanItemsGo fuel ((c :: rest).drop (ka + km + kb))
    | none =>
      match numLen (c :: rest) with
      | some k => .num ((c :: rest).take k) :: scanItemsGo fuel ((c :: rest).drop k)
      | none => .raw c :: scanItemsGo fuel rest

def scanItems (cs : List Char) : List Item := scanItemsGo cs.length cs

/-- The placeholder name `f'var{var_index}'`. -/
def varChars (i : ℕ) : List Char := "var".data ++ (Nat.repr i).data

def varNameStr (i : ℕ) : String := String.mk (varChars i)

/-- The rewritten expression: matched tokens become placeholders (numbered in
match order), unmatched characters pass through unchanged. -/
def renderItems : List Item → ℕ → List Char
  | [], _ => []
  | .raw c :: rest, i => c :: renderItems rest i
  | .num _ :: rest, i => varChars i ++ renderItems rest (i + 1)
  | .range _ _ _ :: rest, i => varChars i ++ renderItems rest (i + 1)

/-! ### Parsing a matched token into a value (Python `float(token)`)

Tokens handed to `float` always have the shape produced by
`number_pattern`, so the conversion is embedded for exactly that grammar,
with exact rational arithmetic standing in for IEEE doubles. -/

def digitsToNat (cs : List Char) : ℕ :=
  cs.foldl (fun n c => 10 * n + (c.toNat - '0'.toNat)) 0

/-- The signed integer after `e`/`E`. -/
def expValue : List Char → ℤ
  | '+' :: r => (digitsToNat r : ℤ)
  | '-' :: r => -(digitsToNat r : ℤ)
  | r => (digitsToNat r : ℤ)

def parseNumCore (cs : List Char) : ℚ :=
  ((digitsToNat (cs.takeWhile Char.isDigit) : ℚ) +
      (digitsToNat (fracDigits cs) : ℚ) / 10 ^ (fracDigits cs).length) *
    10 ^ expPart cs
where
  fracDigits (cs : List Char) : List Char :=
    match cs.drop (cs.takeWhile Char.isDigit).length with
    | '.' :: r => r.takeWhile Char.isDigit
    | _ => []
  expPart (cs : List Char) : ℤ :=
    match (cs.drop (cs.takeWhile Char.isDigit).length).drop (fracLen (cs.drop (cs.takeWhile Char.isDigit).length)) with
    | c :: r => if c = 'e' ∨ c = 'E' then expValue r else 0
    | [] => 0

def parseNum : List Char → ℚ
  | '-' :: rest => -parseNumCore rest
  | cs => parseNumCore cs

/-! ### `parse_expression` -/

/-- A literal found in the expression: `float(token)` for a scalar token,
`(a, b)` for a range token. -/
inductive LitSpec where
  | scalar : ℚ → LitSpec
  | range : ℚ → ℚ → LitSpec
deriving DecidableEq

inductive ParseError where
  | rangeOrder : ℚ → ℚ → ParseError
  | malformedRange : ParseError
deriving DecidableEq

/-- The `for var_name, token in tokens` loop of `parse_expression`: build the
placeholder table, aborting with `RangeOrderError` at the first range whose
lower bound exceeds its upper bound. -/
def buildVars : List Item → ℕ → Except ParseError (List (String × LitSpec))
  | [], _ => .ok []
  | .raw _ :: rest, i => buildVars rest i
  | .num t :: rest, i =>
    (buildVars rest (i + 1)).map fun tail => (varNameStr i, .scalar (parseNum t)) :: tail
  | .range ta _ tb :: rest, i =>
    if parseNum ta > parseNum tb then
      .error (.rangeOrder (parseNum ta) (parseNum tb))
    else
      (buildVars rest (i + 1)).map fun tail =>
        (varNameStr i, .range (parseNum ta) (parseNum tb)) :: tail

/-- `parse_expression`: substitute tokens, build the table (checking range
order), then reject any leftover comma in the rewritten expression. -/
def parse_expression (s : String) : Except ParseError (String × List (String × LitSpec)) :=
  match buildVars (scanItems s.data) 0 with
  | .error e => .error e
  | .ok vars =>
    if (renderItems (scanItems s.data) 0).contains ',' then .error .malformedRange
    else .ok (String.mk (renderItems (scanItems s.data) 0), vars)

/-! ### `generate_samples`

Randomness is supplied by an oracle: `z i j` is the `j`-th standard normal
variate used for variable number `i` (`np.random.lognormal mean sigma`
returns `exp (mean + sigma * Z)`), and `t lo hi i j` is the `j`-th
standardised truncated-normal variate for variable `i`
(`truncnorm.rvs lo hi loc scale` returns `loc + scale * T` with
`T ∈ [lo, hi]`; `Oracle.Valid` records that support guarantee). -/

structure Oracle where
  z : ℕ → ℕ → ℝ
  t : ℝ → ℝ → ℕ → ℕ → ℝ

/-- The scipy guarantee: a truncated draw lies inside its clip interval. -/
def Oracle.Valid (o : Oracle) : Prop :=
  ∀ lo hi : ℝ, ∀ i j : ℕ, lo ≤ hi → o.t lo hi i j ∈ Set.Icc lo hi

inductive SampleError where
  | invalidLogNormal : String → SampleError
  | invalidNormal : String → SampleError
deriving DecidableEq

/-- One loop iteration of `generate_samples` for the variable named `name`
(the `i`-th placeholder).  The `σ ≤ 0` guards are the source's checks: for
the log-normal branch `σ = (log b - log a) / (2·2.576) ≤ 0 ↔ b ≤ a` because
`log` is strictly monotone on the positive reals (in the branch `0 < a`,
and `0 < b` whenever the table comes from `parse_expression`); for the
truncated-normal branch `σ = (b - a) / (2·2.576) ≤ 0 ↔ b ≤ a` exactly. -/
noncomputable def sampleSpec (o : Oracle) (name : String) (i n : ℕ) :
    LitSpec → Except SampleError (List ℝ)
  | .scalar v => .ok (List.replicate n (v : ℝ))
  | .range a b =>
    if a = b then .ok (List.replicate n ((a : ℚ) : ℝ))
    else if 0 < a then
      if b ≤ a then .error (.invalidLogNormal name)
      else
        .ok ((List.range n).map fun j =>
          Real.exp ((Real.log (a : ℝ) + Real.log (b : ℝ)) / 2 +
            (Real.log (b : ℝ) - Real.log (a : ℝ)) / (2 * 2.576) * o.z i j))
    else
      if b ≤ a then .error (.invalidNormal name)
      else
        .ok ((List.range n).map fun j =>
          (((a : ℝ) + (b : ℝ)) / 2) + (((b : ℝ) - (a : ℝ)) / (2 * 2.576)) *
            o.t ((((a : ℝ) - (((a : ℝ) + (b : ℝ)) / 2)) / (((b : ℝ) - (a : ℝ)) / (2 * 2.576))))
                ((((b : ℝ) - (((a : ℝ) + (b : ℝ)) / 2)) / (((b : ℝ) - (a : ℝ)) / (2 * 2.576))))
                i j)

/-- The `for var_name, value in var_values.items()` loop, with `i` the
position of the current entry (used only to index the oracle's independent
streams). -/
noncomputable def generate_samplesGo (o : Oracle) (n : ℕ) :
    ℕ → List (String × LitSpec) → Except SampleError (List (String × List ℝ))
  | _, [] => .ok []
  | i, (name, spec) :: rest => do
    let arr ← sampleSpec o name i n spec
    let tail ← generate_samplesGo o n (i + 1) rest
    pure ((name, arr) :: tail)

noncomputable def generate_samples (o : Oracle) (varValues : List (String × LitSpec))
    (n : ℕ) : Except SampleError (List (String × List ℝ)) :=
  generate_samplesGo o n 0 varValues

/-! ### `evaluate_expression`

The source hands the rewritten expression (after `'^' → '**'`) to Python's
`eval` with a namespace containing only the sample arrays (plus `np` and an
emptied `__builtins__`).  The arithmetic fragment that namespace supports —
identifiers, `+ - * / **`, unary minus and parentheses, applied element-wise
to equal-length arrays — is embedded as a tokenizer, a recursive-descent
grammar mirroring Python's precedence (`u_expr ::= power | "-" u_expr`;
`power ::= atom ["**" u_expr]`), and an evaluator over `List ℝ`.
Division by zero yields Lean's junk value where numpy produces `inf`/`nan`;
no claim depends on either. -/

inductive Tok where
  | ident : String → Tok
  | plus : Tok
  | minus : Tok
  | star : Tok
  | slash : Tok
  | dstar : Tok
  | lpar : Tok
  | rpar : Tok
deriving DecidableEq

def isIdentStart (c : Char) : Bool := c.isAlpha || c == '_'

def isIdentChar (c : Char) : Bool := c.isAlphanum || c == '_'

/-- Tokenize the rewritten expression; any character outside the fragment is
a syntax error (`none`), as it would make `eval` raise.  Structural
recursion on a fuel counter; each step consumes at least one character, so
fuel `cs.length` is enough. -/
def tokenizeGo : ℕ → List Char → Option (List Tok)
  | _, [] => some []
  | 0, _ :: _ => none
  | fuel + 1, c :: rest =>
    if isPySpace c then tokenizeGo fuel rest
    else if c = '(' then (tokenizeGo fuel rest).map (Tok.lpar :: ·)
    else if c = ')' then (tokenizeGo fuel rest).map (Tok.rpar :: ·)
    else if c = '+' then (tokenizeGo fuel rest).map (Tok.plus :: ·)
    else if c = '-' then (tokenizeGo fuel rest).map (Tok.minus :: ·)
    else if c = '/' then (tokenizeGo fuel rest).map (Tok.slash :: ·)
    else if c = '*' then
      if rest.head? = some '*' then (tokenizeGo fuel (rest.drop 1)).map (Tok.dstar :: ·)
      else (tokenizeGo fuel rest).map (Tok.star :: ·)
    else if isIdentStart c then
      (tokenizeGo fuel (rest.drop (rest.takeWhile isIdentChar).length)).map
        (Tok.ident (String.mk (c :: rest.takeWhile isIdentChar)) :: ·)
    else none

def tokenize (cs : List Char) : Option (List Tok) := tokenizeGo cs.length cs

inductive EExpr where
  | ident : String → EExpr
  | neg : EExpr → EExpr
  | add : EExpr → EExpr → EExpr
  | sub : EExpr → EExpr → EExpr
  | mul : EExpr → EExpr → EExpr
  | div : EExpr → EExpr → EExpr
  | pow : EExpr → EExpr → EExpr
deriving DecidableEq

mutual

/-- Additive level: `a_expr ::= m_expr (("+" | "-") m_expr)*`. -/
def parseA : ℕ → List Tok → Option (EExpr × List Tok)
  | 0, _ => none
  | fuel + 1, ts => do
    let (l, ts1) ← parseM fuel ts
    parseATail fuel l ts1

def parseATail : ℕ → EExpr → List Tok → Option (EExpr × List Tok)
  | 0, _, _ => none
  | fuel + 1, acc, Tok.plus :: ts => do
    let (r, ts1) ← parseM fuel ts
    parseATail fuel (EExpr.add acc r) ts1
  | fuel + 1, acc, Tok.minus :: ts => do
    let (r, ts1) ← parseM fuel ts
    parseATail fuel (EExpr.sub acc r) ts1
  | _ + 1, acc, ts => some (acc, ts)

/-- Multiplicative level: `m_expr ::= u_expr (("*" | "/") u_expr)*`. -/
def parseM : ℕ → List Tok → Option (EExpr × List Tok)
  | 0, _ => none
  | fuel + 1, ts => do
    let (l, ts1) ← parseU fuel ts
    parseMTail fuel l ts1

def parseMTail : ℕ → EExpr → List Tok → Option (EExpr × List Tok)
  | 0, _, _ => none
  | fuel + 1, acc, Tok.star :: ts => do
    let (r, ts1) ← parseU fuel ts
    parseMTail fuel (EExpr.mul acc r) ts1
  | fuel + 1, acc, Tok.slash :: ts => do
    let (r, ts1) ← parseU fuel ts
    parseMTail fuel (EExpr.div acc r) ts1
  | _ + 1, acc, ts => some (acc, ts)

/-- Unary level: `u_expr ::= power | "-" u_expr`. -/
def parseU : ℕ → List Tok → Option (EExpr × List Tok)
  | 0, _ => none
  | fuel + 1, Tok.minus :: ts => do
    let (e, ts1) ← parseU fuel ts
    pure (EExpr.neg e, ts1)
  | fuel + 1, ts => parseP fuel ts

/-- Power level: `power ::= atom ["**" u_expr]` (right-associative, and a
unary minus is allowed on the exponent, as in Python). -/
def parseP : ℕ → List Tok → Option (EExpr × List Tok)
  | 0, _ => none
  | fuel + 1, ts => do
    let (b, ts1) ← parseAtomE fuel ts
    match ts1 with
    | Tok.dstar :: ts2 => do
      let (e, ts3) ← parseU fuel ts2
      pure (EExpr.pow b e, ts3)
    | _ => pure (b, ts1)

def parseAtomE : ℕ → List Tok → Option (EExpr × List Tok)
  | 0, _ => none
  | _ + 1, Tok.ident s :: ts => some (EExpr.ident s, ts)
  | fuel + 1, Tok.lpar :: ts => do
    let (e, ts1) ← parseA fuel ts
    match ts1 with
    | Tok.rpar :: ts2 => some (e, ts2)
    | _ => none
  | _, _ => none

end

/-- Element-wise combination of two numpy arrays of the sample length; numpy
raises on a shape mismatch (which cannot happen for arrays produced by
`generate_samples`). -/
def ewOp (f : ℝ → ℝ → ℝ) (a b : List ℝ) : Except String (List ℝ) :=
  if a.length = b.length then .ok (List.zipWith f a b)
  else .error "operands could not be broadcast together"

/-- Evaluate under the restricted namespace: a name resolves only to a
sample array of `samples` (the emptied `__builtins__` contributes nothing;
the `np` module entry is only usable through attribute access, which this
arithmetic fragment does not contain). -/
noncomputable def evalE (env : List (String × List ℝ)) : EExpr → Except String (List ℝ)
  | .ident s =>
    match env.find? (fun p => p.1 == s) with
    | some p => .ok p.2
    | none => .error ("name " ++ s ++ " is not defined")
  | .neg e => do
    let v ← evalE env e
    pure (v.map fun x => -x)
  | .add l r => do ewOp (· + ·) (← evalE env l) (← evalE env r)
  | .sub l r => do ewOp (· - ·) (← evalE env l) (← evalE env r)
  | .mul l r => do ewOp (· * ·) (← evalE env l) (← evalE env r)
  | .div l r => do ewOp (· / ·) (← evalE env l) (← evalE env r)
  | .pow l r => do ewOp (fun x y => Real.rpow x y) (← evalE env l) (← evalE env r)

/-- `evaluate_expression`: replace `'^'` by `'**'`, then parse and evaluate
under the restricted namespace.  The parsing fuel `4 * |tokens| + 8` bounds
the recursion depth of the grammar, which consumes at least one token every
four nested levels. -/
noncomputable def evaluate_expression (expression : String)
    (samples : List (String × List ℝ)) : Except String (List ℝ) :=
  match tokenize (expression.data.flatMap fun c => if c = '^' then ['*', '*'] else [c]) with
  | none => .error "invalid syntax"
  | some ts =>
    match parseA (4 * ts.length + 8) ts with
    | some (e, []) => evalE samples e
    | _ => .error "invalid syntax"

/-! ### Statistics (`np.mean`, `np.std`, `np.percentile` in `unsafe_main`) -/

noncomputable def npMean (xs : List ℝ) : ℝ := xs.sum / xs.length

/-- `np.std`: the population standard deviation (divisor `n`). -/
noncomputable def npStd (xs : List ℝ) : ℝ :=
  Real.sqrt ((xs.map fun x => (x - npMean xs) ^ 2).sum / xs.length)

/-- `np.percentile(xs, q)` with the default linear interpolation: the value
at virtual index `q/100 · (n-1)` of the sorted array, interpolating between
the two adjacent order statistics. -/
noncomputable def npPercentile (xs : List ℝ) (q : ℝ) : ℝ :=
  let s := xs.mergeSort fun a b => decide (a ≤ b)
  let idx : ℝ := q / 100 * ((xs.length : ℝ) - 1)
  let lo := s.getD (⌊idx⌋).toNat 0
  let hi := s.getD ((⌊idx⌋).toNat + 1) lo
  lo + (idx - ⌊idx⌋) * (hi - lo)

/-- The statistics record computed by `unsafe_main` from the result array. -/
structure Stats where
  mean : ℝ
  std_dev : ℝ
  ci_low : ℝ
  ci_high : ℝ

noncomputable def reduceStats (xs : List ℝ) : Stats :=
  ⟨npMean xs, npStd xs, npPercentile xs 1, npPercentile xs 99⟩

/-! ### The whole pipeline of `unsafe_main` -/

inductive FermiError where
  | parseErr : ParseError → FermiError
  | sampleErr : SampleError → FermiError
  | evalErr : String → FermiError
deriving DecidableEq

/-- `unsafe_main` without the CLI glue: parse, sample, evaluate, reduce. -/
noncomputable def runEstimate (o : Oracle) (s : String) (n : ℕ) :
    Except FermiError Stats := do
  let pe ← (parse_expression s).mapError FermiError.parseErr
  let samples ← (generate_samples o pe.2 n).mapError FermiError.sampleErr
  let result ← (evaluate_expression pe.1 samples).mapError FermiError.evalErr
  pure (reduceStats result)

/-! ### Helper lemmas -/

/-- The fuel argument of `scanItemsGo` is irrelevant once it is at least
the length of the input. -/
theorem scanItemsGo_fuel : ∀ (fuel₁ fuel₂ : ℕ) (cs : List Char),
    cs.length ≤ fuel₁ → cs.length ≤ fuel₂ →
    scanItemsGo fuel₁ cs = scanItemsGo fuel₂ cs := by
  intro fuel₁
  induction fuel₁ with
  | zero =>
    intro fuel₂ cs h1 _
    cases cs with
    | nil => cases fuel₂ <;> rfl
    | cons c rest => simp at h1
  | succ f₁ ih =>
    intro fuel₂ cs h1 h2
    cases cs with
    | nil => cases fuel₂ <;> rfl
    | cons c rest =>
      cases fuel₂ with
      | zero => simp at h2
      | succ f₂ =>
        rcases hr : rangeLen (c :: rest) with _ | ⟨ka, km, kb⟩
        · rcases hn : numLen (c :: rest) with _ | k
          · simp only [scanItemsGo, hr, hn, List.cons.injEq, true_and]
            exact ih f₂ rest (by simp at h1; omega) (by simp at h2; omega)
          · have hk := numLen_pos hn
            simp only [scanItemsGo, hr, hn, List.cons.injEq, true_and]
            exact ih f₂ _ (by simp [List.length_drop] at h1 ⊢; omega)
              (by simp [List.length_drop] at h2 ⊢; omega)
        · have hk := rangeLen_pos hr
          simp only [scanItemsGo, hr, List.cons.injEq, true_and]
          exact ih f₂ _ (by simp [List.length_drop] at h1 ⊢; omega)
            (by simp [List.length_drop] at h2 ⊢; omega)

/-- One-step equation of `scanItems` when the range alternative matches. -/
theorem scanItems_cons_range {c : Char} {rest : List Char} {ka km kb : ℕ}
    (hr : rangeLen (c :: rest) = some (ka, km, kb)) :
    scanItems (c :: rest) =
      .range ((c :: rest).take ka) (((c :: rest).drop ka).take km)
          (((c :: rest).drop (ka + km)).take kb) ::
        scanItems ((c :: rest).drop (ka + km + kb)) := by
  have hk := rangeLen_pos hr
  unfold scanItems
  simp only [List.length_cons, scanItemsGo, hr, List.cons.injEq, true_and]
  exact scanItemsGo_fuel rest.length _ _
    (by simp [List.length_drop]; omega) (le_refl _)

/-- One-step equation of `scanItems` when only a scalar number matches. -/
theorem scanItems_cons_num {c : Char} {rest : List Char} {k : ℕ}
    (hr : rangeLen (c :: rest) = none) (hn : numLen (c :: rest) = some k) :
    scanItems (c :: rest) =
      .num ((c :: rest).take k) :: scanItems ((c :: rest).drop k) := by
  have hk := numLen_pos hn
  unfold scanItems
  simp only [List.length_cons, scanItemsGo, hr, hn, List.cons.injEq, true_and]
  exact scanItemsGo_fuel rest.length _ _
    (by simp [List.length_drop]; omega) (le_refl _)

/-- One-step equation of `scanItems` when nothing matches at the head. -/
theorem scanItems_cons_raw {c : Char} {rest : List Char}
    (hr : rangeLen (c :: rest) = none) (hn : numLen (c :: rest) = none) :
    scanItems (c :: rest) = .raw c :: scanItems rest := by
  unfold scanItems
  simp only [List.length_cons, scanItemsGo, hr, hn]

theorem scanItems_nil : scanItems [] = [] := rfl

theorem take_drop_reassemble (l : List Char) (a b c : ℕ) :
    l.take a ++ ((l.drop a).take b ++ ((l.drop (a + b)).take c ++ l.drop (a + b + c))) = l := by
  have h1 : l.drop (a + b + c) = (l.drop (a + b)).drop c := by rw [List.drop_drop]
  rw [h1, List.take_append_drop]
  have h2 : l.drop (a + b) = (l.drop a).drop b := by rw [List.drop_drop]
  rw [h2, List.take_append_drop, List.take_append_drop]

theorem scanItemsGo_sourceText : ∀ (fuel : ℕ) (cs : List Char), cs.length ≤ fuel →
    ((scanItemsGo fuel cs).map Item.sourceText).flatten = cs := by
  intro fuel
  induction fuel with
  | zero =>
    intro cs h
    cases cs with
    | nil => rfl
    | cons c rest => simp at h
  | succ f ih =>
    intro cs h
    cases cs with
    | nil => rfl
    | cons c rest =>
      rcases hr : rangeLen (c :: rest) with _ | ⟨ka, km, kb⟩
      · rcases hn : numLen (c :: rest) with _ | k
        · simp only [scanItemsGo, hr, hn, List.map_cons, List.flatten_cons, Item.sourceText]
          rw [ih rest (by simp at h; omega)]
          rfl
        · have hk := numLen_pos hn
          simp only [scanItemsGo, hr, hn, List.map_cons, List.flatten_cons, Item.sourceText]
          rw [ih _ (by simp [List.length_drop] at h ⊢; omega)]
          exact List.take_append_drop k (c :: rest)
      · have hk := rangeLen_pos hr
        simp only [scanItemsGo, hr, List.map_cons, List.flatten_cons, Item.sourceText,
          List.append_assoc]
        rw [ih _ (by simp [List.length_drop] at h ⊢; omega)]
        exact take_drop_reassemble (c :: rest) ka km kb

/-- The scanned items cover the input exactly: concatenating their source
texts gives back the original expression. -/
theorem scanItems_sourceText (cs : List Char) :
    ((scanItems cs).map Item.sourceText).flatten = cs :=
  scanItemsGo_sourceText cs.length cs (le_refl _)

/-- A concrete oracle: every normal variate is `0` and every truncated
draw sits at the lower clip bound. -/
noncomputable def zeroOracle : Oracle := ⟨fun _ _ => 0, fun lo _ _ _ => lo⟩

theorem zeroOracle_valid : zeroOracle.Valid := by
  intro lo hi i j h
  exact Set.mem_Icc.mpr ⟨le_refl lo, h⟩

/-! ### Claim theorems -/

/-- C1: for a range `(a, b)` with `0 < a < b`, `generate_samples` draws the
`n` samples from the log-normal distribution with `μ = (ln a + ln b)/2` and
`σ = (ln b − ln a)/(2·2.576)` — each sample is `exp (μ + σ·Z)` for a
standard normal variate `Z` — and consequently every drawn sample is
strictly positive. -/
theorem lognormal_branch_params_and_positive (o : Oracle) (name : String) (i n : ℕ)
    (a b : ℚ) (ha : 0 < a) (hab : a < b) :
    sampleSpec o name i n (.range a b) =
      .ok ((List.range n).map fun j =>
        Real.exp ((Real.log (a : ℝ) + Real.log (b : ℝ)) / 2 +
          (Real.log (b : ℝ) - Real.log (a : ℝ)) / (2 * 2.576) * o.z i j)) ∧
    ∀ arr : List ℝ, sampleSpec o name i n (.range a b) = .ok arr →
      ∀ x ∈ arr, 0 < x := by
  have hne : a ≠ b := ne_of_lt hab
  have hnle : ¬b ≤ a := not_le.mpr hab
  have heq : sampleSpec o name i n (.range a b) =
      .ok ((List.range n).map fun j =>
        Real.exp ((Real.log (a : ℝ) + Real.log (b : ℝ)) / 2 +
          (Real.log (b : ℝ) - Real.log (a : ℝ)) / (2 * 2.576) * o.z i j)) := by
    simp [sampleSpec, hne, ha, hnle]
  refine ⟨heq, fun arr harr x hx => ?_⟩
  rw [heq] at harr
  injection harr with harr
  subst harr
  obtain ⟨j, _, rfl⟩ := List.mem_map.mp hx
  exact Real.exp_pos _

/-- Witness for C1: the range `(1, 2)` with three samples. -/
theorem lognormal_branch_params_and_positive_w :
    (0 : ℚ) < 1 ∧ (1 : ℚ) < 2 ∧
    (sampleSpec zeroOracle "var0" 0 3 (.range 1 2) =
        .ok ((List.range 3).map fun j =>
          Real.exp ((Real.log ((1 : ℚ) : ℝ) + Real.log ((2 : ℚ) : ℝ)) / 2 +
            (Real.log ((2 : ℚ) : ℝ) - Real.log ((1 : ℚ) : ℝ)) / (2 * 2.576) *
              zeroOracle.z 0 j)) ∧
      ∀ arr : List ℝ, sampleSpec zeroOracle "var0" 0 3 (.range 1 2) = .ok arr →
        ∀ x ∈ arr, 0 < x) :=
  ⟨by norm_num, by norm_num,
    lognormal_branch_params_and_positive zeroOracle "var0" 0 3 1 2 (by norm_num) (by norm_num)⟩

/-- C2: for a range `(a, b)` with `a ≤ 0 < b − a`, `generate_samples` draws
from the normal distribution with `μ = (a+b)/2`, `σ = (b−a)/(2·2.576)`
truncated to `[a, b]`: each sample is `μ + σ·T` for a standardised
truncated draw `T`, and every sample lies within `[a, b]`. -/
theorem truncnormal_branch_bounds (o : Oracle) (hv : o.Valid) (name : String)
    (i n : ℕ) (a b : ℚ) (ha : a ≤ 0) (hab : a < b) :
    sampleSpec o name i n (.range a b) =
      .ok ((List.range n).map fun j =>
        (((a : ℝ) + (b : ℝ)) / 2) + (((b : ℝ) - (a : ℝ)) / (2 * 2.576)) *
          o.t ((((a : ℝ) - (((a : ℝ) + (b : ℝ)) / 2)) / (((b : ℝ) - (a : ℝ)) / (2 * 2.576))))
              ((((b : ℝ) - (((a : ℝ) + (b : ℝ)) / 2)) / (((b : ℝ) - (a : ℝ)) / (2 * 2.576))))
              i j) ∧
    ∀ arr : List ℝ, sampleSpec o name i n (.range a b) = .ok arr →
      ∀ x ∈ arr, (a : ℝ) ≤ x ∧ x ≤ (b : ℝ) := by
  have hne : a ≠ b := ne_of_lt hab
  have hnpos : ¬(0 : ℚ) < a := not_lt.mpr ha
  have hnle : ¬b ≤ a := not_le.mpr hab
  have heq : sampleSpec o name i n (.range a b) =
      .ok ((List.range n).map fun j =>
        (((a : ℝ) + (b : ℝ)) / 2) + (((b : ℝ) - (a : ℝ)) / (2 * 2.576)) *
          o.t ((((a : ℝ) - (((a : ℝ) + (b : ℝ)) / 2)) / (((b : ℝ) - (a : ℝ)) / (2 * 2.576))))
              ((((b : ℝ) - (((a : ℝ) + (b : ℝ)) / 2)) / (((b : ℝ) - (a : ℝ)) / (2 * 2.576))))
              i j) := by
    simp [sampleSpec, hne, hnpos, hnle]
  refine ⟨heq, fun arr harr x hx => ?_⟩
  rw [heq] at harr
  injection harr with harr
  subst harr
  obtain ⟨j, _, rfl⟩ := List.mem_map.mp hx
  set A : ℝ := (a : ℝ) with hA
  set B : ℝ := (b : ℝ) with hB
  have hABlt : A < B := by rw [hA, hB]; exact_mod_cast hab
  have hsig : (0 : ℝ) < (B - A) / (2 * 2.576) := div_pos (by linarith) (by norm_num)
  have hsig_ne : ((B - A) / (2 * 2.576) : ℝ) ≠ 0 := ne_of_gt hsig
  have hlu : (A - (A + B) / 2) / ((B - A) / (2 * 2.576)) ≤
      (B - (A + B) / 2) / ((B - A) / (2 * 2.576)) :=
    (div_le_div_iff_of_pos_right hsig).mpr (by linarith)
  obtain ⟨hlo, hhi⟩ := Set.mem_Icc.mp (hv _ _ i j hlu)
  have h1 : ((B - A) / (2 * 2.576)) * ((A - (A + B) / 2) / ((B - A) / (2 * 2.576))) =
      A - (A + B) / 2 := by
    rw [mul_comm, div_mul_cancel₀ _ hsig_ne]
  have h2 : ((B - A) / (2 * 2.576)) * ((B - (A + B) / 2) / ((B - A) / (2 * 2.576))) =
      B - (A + B) / 2 := by
    rw [mul_comm, div_mul_cancel₀ _ hsig_ne]
  have h3 := mul_le_mul_of_nonneg_left hlo hsig.le
  have h4 := mul_le_mul_of_nonneg_left hhi hsig.le
  constructor <;> linarith [h1, h2, h3, h4]

/-- Witness for C2: the range `(-1, 1)` with two samples under `zeroOracle`. -/
theorem truncnormal_branch_bounds_w :
    (-1 : ℚ) ≤ 0 ∧ (-1 : ℚ) < 1 ∧
    (sampleSpec zeroOracle "var0" 0 2 (.range (-1) 1) =
        .ok ((List.range 2).map fun j =>
          ((((-1 : ℚ) : ℝ) + ((1 : ℚ) : ℝ)) / 2) +
            ((((1 : ℚ) : ℝ) - ((-1 : ℚ) : ℝ)) / (2 * 2.576)) *
              zeroOracle.t
                (((((-1 : ℚ) : ℝ) - ((((-1 : ℚ) : ℝ) + ((1 : ℚ) : ℝ)) / 2)) /
                  ((((1 : ℚ) : ℝ) - ((-1 : ℚ) : ℝ)) / (2 * 2.576))))
                (((((1 : ℚ) : ℝ) - ((((-1 : ℚ) : ℝ) + ((1 : ℚ) : ℝ)) / 2)) /
                  ((((1 : ℚ) : ℝ) - ((-1 : ℚ) : ℝ)) / (2 * 2.576))))
                0 j) ∧
      ∀ arr : List ℝ, sampleSpec zeroOracle "var0" 0 2 (.range (-1) 1) = .ok arr →
        ∀ x ∈ arr, ((-1 : ℚ) : ℝ) ≤ x ∧ x ≤ ((1 : ℚ) : ℝ)) :=
  ⟨by norm_num, by norm_num,
    truncnormal_branch_bounds zeroOracle zeroOracle_valid "var0" 0 2 (-1) 1
      (by norm_num) (by norm_num)⟩

/-- C4: a scalar literal `v` and a degenerate range `(a, a)` — for any `a`,
including `a ≤ 0` — both produce the constant array of `n` copies of the
value, every entry exactly equal to it, before either distribution branch
is reached. -/
theorem scalar_and_degenerate_constant (o : Oracle) (name : String) (i n : ℕ) (v a : ℚ) :
    sampleSpec o name i n (.scalar v) = .ok (List.replicate n ((v : ℚ) : ℝ)) ∧
    sampleSpec o name i n (.range a a) = .ok (List.replicate n ((a : ℚ) : ℝ)) ∧
    (∀ arr : List ℝ, sampleSpec o name i n (.scalar v) = .ok arr →
      ∀ x ∈ arr, x = ((v : ℚ) : ℝ)) ∧
    (∀ arr : List ℝ, sampleSpec o name i n (.range a a) = .ok arr →
      ∀ x ∈ arr, x = ((a : ℚ) : ℝ)) := by
  have h1 : sampleSpec o name i n (.scalar v) = .ok (List.replicate n ((v : ℚ) : ℝ)) := rfl
  have h2 : sampleSpec o name i n (.range a a) = .ok (List.replicate n ((a : ℚ) : ℝ)) := by
    simp [sampleSpec]
  refine ⟨h1, h2, fun arr harr x hx => ?_, fun arr harr x hx => ?_⟩
  · rw [h1] at harr
    injection harr with harr
    subst harr
    exact List.eq_of_mem_replicate hx
  · rw [h2] at harr
    injection harr with harr
    subst harr
    exact List.eq_of_mem_replicate hx

/-- Witness for C4 with a scalar `7` and the degenerate range `(-2, -2)`
(a nonpositive bound, so the truncated-normal branch would otherwise
apply). -/
theorem scalar_and_degenerate_constant_w :
    sampleSpec zeroOracle "var0" 0 1 (.scalar 7) = .ok (List.replicate 1 ((7 : ℚ) : ℝ)) ∧
    sampleSpec zeroOracle "var0" 0 1 (.range (-2) (-2)) =
      .ok (List.replicate 1 (((-2) : ℚ) : ℝ)) ∧
    (∀ x ∈ List.replicate 1 ((7 : ℚ) : ℝ), x = ((7 : ℚ) : ℝ)) ∧
    (∀ x ∈ List.replicate 1 (((-2) : ℚ) : ℝ), x = (((-2) : ℚ) : ℝ)) := by
  obtain ⟨h1, h2, h3, h4⟩ := scalar_and_degenerate_constant zeroOracle "var0" 0 1 7 (-2)
  exact ⟨h1, h2, h3 _ h1, h4 _ h2⟩

/-- `sampleSpec` either fails or returns an array of length exactly `n`. -/
theorem sampleSpec_ok_length {o : Oracle} {name : String} {i n : ℕ} {spec : LitSpec}
    {arr : List ℝ} (h : sampleSpec o name i n spec = .ok arr) : arr.length = n := by
  cases spec with
  | scalar v =>
    injection h with h
    subst h
    simp
  | range a b =>
    simp only [sampleSpec] at h
    split_ifs at h <;> (injection h with h; subst h; simp)

/-- Whether `sampleSpec` fails does not depend on the sample count `n`. -/
theorem sampleSpec_isOk_independent_of_n (o : Oracle) (name : String) (i : ℕ)
    (spec : LitSpec) (n₁ n₂ : ℕ) :
    (sampleSpec o name i n₁ spec).isOk = (sampleSpec o name i n₂ spec).isOk := by
  cases spec with
  | scalar v => rfl
  | range a b =>
    simp only [sampleSpec]
    split_ifs <;> rfl

theorem generate_samplesGo_keys_lengths {o : Oracle} {n : ℕ} :
    ∀ {vars : List (String × LitSpec)} {i : ℕ} {m : List (String × List ℝ)},
      generate_samplesGo o n i vars = .ok m →
      m.map Prod.fst = vars.map Prod.fst ∧ ∀ p ∈ m, p.2.length = n := by
  intro vars
  induction vars with
  | nil =>
    intro i m h
    injection h with h
    subst h
    simp
  | cons hd tl ih =>
    intro i m h
    unfold generate_samplesGo at h
    cases hs : sampleSpec o hd.1 i n hd.2 with
    | error e => rw [hs] at h; exact absurd h (by simp [Bind.bind, Except.bind])
    | ok arr =>
      rw [hs] at h
      cases ht : generate_samplesGo o n (i + 1) tl with
      | error e =>
        rw [ht] at h
        exact absurd h (by simp [Bind.bind, Except.bind])
      | ok tail =>
        rw [ht] at h
        simp only [Bind.bind, Except.bind, pure, Except.pure] at h
        injection h with h
        subst h
        obtain ⟨hk, hl⟩ := ih ht
        refine ⟨by simp [hk], fun p hp => ?_⟩
        rcases List.mem_cons.mp hp with hp | hp
        · subst hp
          exact sampleSpec_ok_length hs
        · exact hl p hp

theorem generate_samplesGo_isOk_independent_of_n (o : Oracle) (n₁ n₂ : ℕ) :
    ∀ (vars : List (String × LitSpec)) (i : ℕ),
      (generate_samplesGo o n₁ i vars).isOk = (generate_samplesGo o n₂ i vars).isOk := by
  intro vars
  induction vars with
  | nil => intro i; rfl
  | cons hd tl ih =>
    intro i
    unfold generate_samplesGo
    have hspec := sampleSpec_isOk_independent_of_n o hd.1 i hd.2 n₁ n₂
    cases hs1 : sampleSpec o hd.1 i n₁ hd.2 with
    | error e =>
      cases hs2 : sampleSpec o hd.1 i n₂ hd.2 with
      | error e2 => simp [Bind.bind, Except.bind, hs1, hs2, Except.isOk, Except.toBool]
      | ok arr2 => rw [hs1, hs2] at hspec; exact absurd hspec (by simp [Except.isOk, Except.toBool])
    | ok arr =>
      cases hs2 : sampleSpec o hd.1 i n₂ hd.2 with
      | error e2 => rw [hs1, hs2] at hspec; exact absurd hspec (by simp [Except.isOk, Except.toBool])
      | ok arr2 =>
        simp only [Bind.bind, Except.bind]
        have htl := ih (i + 1)
        cases ht1 : generate_samplesGo o n₁ (i + 1) tl with
        | error e =>
          cases ht2 : generate_samplesGo o n₂ (i + 1) tl with
          | error e2 => rfl
          | ok tail2 => rw [ht1, ht2] at htl; exact absurd htl (by simp [Except.isOk, Except.toBool])
        | ok tail =>
          cases ht2 : generate_samplesGo o n₂ (i + 1) tl with
          | error e2 => rw [ht1, ht2] at htl; exact absurd htl (by simp [Except.isOk, Except.toBool])
          | ok tail2 => rfl

/-- On a well-formed entry (a table entry whose range, if any, has its
bounds in order — the only kind `parse_expression` produces), `sampleSpec`
never fails. -/
theorem sampleSpec_ok_of_wf (o : Oracle) (name : String) (i n : ℕ) :
    ∀ spec : LitSpec, (∀ a b : ℚ, spec = .range a b → a ≤ b) →
    ∃ arr, sampleSpec o name i n spec = .ok arr := by
  intro spec hw
  cases spec with
  | scalar v => exact ⟨_, rfl⟩
  | range a b =>
    have hab : a ≤ b := hw a b rfl
    simp only [sampleSpec]
    split_ifs with h1 h2 h3 h4
    · exact ⟨_, rfl⟩
    · exact absurd (le_antisymm hab h3) h1
    · exact ⟨_, rfl⟩
    · exact absurd (le_antisymm hab h4) h1
    · exact ⟨_, rfl⟩

theorem generate_samplesGo_ok_of_wf (o : Oracle) (n : ℕ) :
    ∀ (vars : List (String × LitSpec)) (i : ℕ),
    (∀ p ∈ vars, ∀ a b : ℚ, p.2 = LitSpec.range a b → a ≤ b) →
    ∃ m, generate_samplesGo o n i vars = .ok m := by
  intro vars
  induction vars with
  | nil => exact fun i _ => ⟨[], rfl⟩
  | cons hd tl ih =>
    intro i hw
    obtain ⟨name, spec⟩ := hd
    obtain ⟨arr, harr⟩ := sampleSpec_ok_of_wf o name i n spec
      (hw (name, spec) (List.mem_cons_self _ _))
    obtain ⟨m, hm⟩ := ih (i + 1) (fun p hp => hw p (List.mem_cons_of_mem _ hp))
    exact ⟨(name, arr) :: m,
      by simp [generate_samplesGo, Bind.bind, Except.bind, harr, hm, pure, Except.pure]⟩

/-- C10: on every table whose ranges are ordered (as all tables built by
`parse_expression` are) the sampler succeeds and returns a mapping whose
keys are exactly the table's placeholders in the table's insertion order,
with every value an array of length exactly `n`; and the sampler performs
no validation of `n` — whether it succeeds is independent of `n` (with
`n = 0` it simply returns empty arrays). -/
theorem generate_samples_shape (o : Oracle) (vars : List (String × LitSpec)) (n : ℕ) :
    (∀ m, generate_samples o vars n = .ok m →
      m.map Prod.fst = vars.map Prod.fst ∧ ∀ p ∈ m, p.2.length = n) ∧
    ((∀ p ∈ vars, ∀ a b : ℚ, p.2 = LitSpec.range a b → a ≤ b) →
      ∃ m, generate_samples o vars n = .ok m) ∧
    (generate_samples o vars n).isOk = (generate_samples o vars 0).isOk := by
  exact ⟨fun m h => generate_samplesGo_keys_lengths h,
    fun hw => generate_samplesGo_ok_of_wf o n vars 0 hw,
    generate_samplesGo_isOk_independent_of_n o n 0 vars 0⟩

/-- Witness for C10 at a one-entry table with `n = 2`. -/
theorem generate_samples_shape_w :
    generate_samples zeroOracle [("var0", .scalar 5)] 2 =
      .ok [("var0", List.replicate 2 ((5 : ℚ) : ℝ))] ∧
    [("var0", List.replicate 2 ((5 : ℚ) : ℝ))].map Prod.fst =
      [(("var0" : String), LitSpec.scalar 5)].map Prod.fst ∧
    (∀ p ∈ [("var0", List.replicate 2 ((5 : ℚ) : ℝ))], p.2.length = 2) ∧
    (∀ p ∈ [(("var0" : String), LitSpec.scalar 5)], ∀ a b : ℚ,
      p.2 = LitSpec.range a b → a ≤ b) ∧
    ∃ m, generate_samples zeroOracle [("var0", .scalar 5)] 2 = .ok m := by
  have hok : generate_samples zeroOracle [("var0", .scalar 5)] 2 =
      .ok [("var0", List.replicate 2 ((5 : ℚ) : ℝ))] := rfl
  have hwf : ∀ p ∈ [(("var0" : String), LitSpec.scalar 5)], ∀ a b : ℚ,
      p.2 = LitSpec.range a b → a ≤ b := by
    intro p hp a b hr
    simp only [List.mem_singleton] at hp
    subst hp
    exact absurd hr (by simp)
  obtain ⟨h1, h2, _⟩ := generate_samples_shape zeroOracle [("var0", .scalar 5)] 2
  obtain ⟨hk, hl⟩ := h1 _ hok
  exact ⟨hok, hk, hl, hwf, h2 hwf⟩

theorem renderItems_all_raw : ∀ (l : List Item), (∀ it ∈ l, it.isRaw = true) → ∀ i : ℕ,
    renderItems l i = (l.map Item.sourceText).flatten := by
  intro l
  induction l with
  | nil => intro _ i; rfl
  | cons hd tl ih =>
    intro h i
    cases hd with
    | raw c =>
      simp only [renderItems, List.map_cons, List.flatten_cons, Item.sourceText]
      rw [ih (fun it hit => h it (List.mem_cons_of_mem _ hit)) i]
      rfl
    | num t => exact absurd (h _ (List.mem_cons_self _ _)) (by simp [Item.isRaw])
    | range ta m tb => exact absurd (h _ (List.mem_cons_self _ _)) (by simp [Item.isRaw])

/-- C9: the extraction step only replaces matched literal/range substrings:
the scanned items reassemble exactly to the input expression (so every
unmatched character — operators, parentheses, whitespace, the caret — is
carried over by the scan, and `renderItems` copies it verbatim), and when
nothing at all is matched the rewritten expression is the input itself. -/
theorem extraction_preserves_nonliteral_text (s : String) :
    ((scanItems s.data).map Item.sourceText).flatten = s.data ∧
    ((∀ it ∈ scanItems s.data, it.isRaw = true) →
      renderItems (scanItems s.data) 0 = s.data) := by
  refine ⟨scanItems_sourceText s.data, fun h => ?_⟩
  rw [renderItems_all_raw _ h 0, scanItems_sourceText]

/-- Witness for C9 on an input made only of non-literal text. -/
theorem extraction_preserves_nonliteral_text_w :
    (∀ it ∈ scanItems ("x + (y) ^ z").data, it.isRaw = true) ∧
    ((scanItems ("x + (y) ^ z").data).map Item.sourceText).flatten = ("x + (y) ^ z").data ∧
    renderItems (scanItems ("x + (y) ^ z").data) 0 = ("x + (y) ^ z").data := by
  have h : ∀ it ∈ scanItems ("x + (y) ^ z").data, it.isRaw = true := by decide
  obtain ⟨h1, h2⟩ := extraction_preserves_nonliteral_text "x + (y) ^ z"
  exact ⟨h, h1, h2 h⟩

/-! ### Evaluating `parseNum` on the concrete tokens of the spec scenarios
(`float` of the token text, as an exact rational) -/

theorem parseNum_one : parseNum ['1'] = 1 := by
  have h : parseNum ['1'] =
      (((1 : ℕ) : ℚ) + ((0 : ℕ) : ℚ) / 10 ^ (0 : ℕ)) * 10 ^ (0 : ℤ) := rfl
  rw [h]; norm_num

theorem parseNum_ten : parseNum ['1', '0'] = 10 := by
  have h : parseNum ['1', '0'] =
      (((10 : ℕ) : ℚ) + ((0 : ℕ) : ℚ) / 10 ^ (0 : ℕ)) * 10 ^ (0 : ℤ) := rfl
  rw [h]; norm_num

theorem parseNum_two : parseNum ['2'] = 2 := by
  have h : parseNum ['2'] =
      (((2 : ℕ) : ℚ) + ((0 : ℕ) : ℚ) / 10 ^ (0 : ℕ)) * 10 ^ (0 : ℤ) := rfl
  rw [h]; norm_num

theorem parseNum_three : parseNum ['3'] = 3 := by
  have h : parseNum ['3'] =
      (((3 : ℕ) : ℚ) + ((0 : ℕ) : ℚ) / 10 ^ (0 : ℕ)) * 10 ^ (0 : ℤ) := rfl
  rw [h]; norm_num

theorem parseNum_four : parseNum ['4'] = 4 := by
  have h : parseNum ['4'] =
      (((4 : ℕ) : ℚ) + ((0 : ℕ) : ℚ) / 10 ^ (0 : ℕ)) * 10 ^ (0 : ℤ) := rfl
  rw [h]; norm_num

theorem parseNum_five : parseNum ['5'] = 5 := by
  have h : parseNum ['5'] =
      (((5 : ℕ) : ℚ) + ((0 : ℕ) : ℚ) / 10 ^ (0 : ℕ)) * 10 ^ (0 : ℤ) := rfl
  rw [h]; norm_num

/-- C3: wherever the two-number range form matches, the scanner takes it —
a single range token — in preference to an independent scalar match (the
range alternative of `token_pattern` is tried first); for the input
`"1,10"` the rewritten expression is exactly the one placeholder bound to
the range `(1, 10)` (no MalformedRangeError), and evaluating that bare
placeholder returns its sample array unchanged. -/
theorem range_preferred_over_scalars :
    (∀ (c : Char) (rest : List Char) (ka km kb : ℕ),
      rangeLen (c :: rest) = some (ka, km, kb) →
      scanItems (c :: rest) =
        .range ((c :: rest).take ka) (((c :: rest).drop ka).take km)
            (((c :: rest).drop (ka + km)).take kb) ::
          scanItems ((c :: rest).drop (ka + km + kb))) ∧
    parse_expression "1,10" = .ok ("var0", [("var0", .range 1 10)]) ∧
    ∀ arr : List ℝ, evaluate_expression "var0" [("var0", arr)] = .ok arr := by
  refine ⟨fun c rest ka km kb hr => scanItems_cons_range hr, ?_, fun arr => rfl⟩
  have hno : ¬(parseNum ['1'] > parseNum ['1', '0']) := by
    rw [parseNum_one, parseNum_ten]; norm_num
  unfold parse_expression
  rw [show scanItems ("1,10").data = [Item.range ['1'] [','] ['1', '0']] from rfl]
  simp only [buildVars, if_neg hno, parseNum_one, parseNum_ten, Except.map]
  rw [show (renderItems [Item.range ['1'] [','] ['1', '0']] 0).contains ',' = false
    from rfl]
  rfl

/-- Witness for C3's range-preference hypothesis at the input `"1,10"`. -/
theorem range_preferred_over_scalars_w :
    rangeLen ('1' :: [',', '1', '0']) = some (1, 1, 2) ∧
    scanItems ('1' :: [',', '1', '0']) =
      .range (('1' :: [',', '1', '0']).take 1)
          ((('1' :: [',', '1', '0']).drop 1).take 1)
          ((('1' :: [',', '1', '0']).drop (1 + 1)).take 2) ::
        scanItems (('1' :: [',', '1', '0']).drop (1 + 1 + 2)) := by
  have hr : rangeLen ('1' :: [',', '1', '0']) = some (1, 1, 2) := by decide
  exact ⟨hr, (range_preferred_over_scalars.1) '1' [',', '1', '0'] 1 1 2 hr⟩

/-- Does this item denote a range token whose parsed lower bound exceeds
its parsed upper bound (the `a > b` test of `parse_expression`)? -/
def Item.isBadRange : Item → Bool
  | .range ta _ tb => decide (parseNum tb < parseNum ta)
  | _ => false

/-- If any scanned range has its bounds out of order, the table-building
loop aborts with a RangeOrderError. -/
theorem buildVars_bad_range : ∀ (l : List Item) (i : ℕ), l.any Item.isBadRange = true →
    ∃ a b : ℚ, buildVars l i = .error (.rangeOrder a b) := by
  intro l
  induction l with
  | nil => intro i h; simp at h
  | cons hd tl ih =>
    intro i h
    cases hd with
    | raw c =>
      simp only [List.any_cons, Item.isBadRange, Bool.false_or] at h
      simpa [buildVars] using ih i h
    | num t =>
      simp only [List.any_cons, Item.isBadRange, Bool.false_or] at h
      obtain ⟨a, b, hab⟩ := ih (i + 1) h
      exact ⟨a, b, by simp [buildVars, hab, Except.map]⟩
    | range ta m tb =>
      by_cases hbad : parseNum ta > parseNum tb
      · exact ⟨parseNum ta, parseNum tb, by simp [buildVars, hbad]⟩
      · have h' : tl.any Item.isBadRange = true := by
          simp only [List.any_cons, Item.isBadRange] at h
          rcases Bool.or_eq_true_iff.mp h with hh | hh
          · exact absurd (of_decide_eq_true hh) (by exact fun hlt => hbad hlt)
          · exact hh
        obtain ⟨a, b, hab⟩ := ih (i + 1) h'
        exact ⟨a, b, by simp [buildVars, hbad, hab, Except.map]⟩

/-- C6: an expression containing a range token with lower bound above upper
bound makes `parse_expression` fail with a RangeOrderError, and the whole
run fails with that error for every oracle — sampling never takes place and
no estimation output is produced. -/
theorem range_order_error_before_sampling (s : String) (n : ℕ)
    (h : (scanItems s.data).any Item.isBadRange = true) :
    ∃ a b : ℚ, parse_expression s = .error (.rangeOrder a b) ∧
      ∀ o : Oracle, runEstimate o s n = .error (.parseErr (.rangeOrder a b)) := by
  obtain ⟨a, b, hab⟩ := buildVars_bad_range (scanItems s.data) 0 h
  refine ⟨a, b, ?_, fun o => ?_⟩
  · simp [parse_expression, hab]
  · simp [runEstimate, parse_expression, hab, Except.mapError, Bind.bind, Except.bind]

/-- Witness for C6 at the spec scenario `"5,1"`. -/
theorem range_order_error_before_sampling_w :
    (scanItems ("5,1").data).any Item.isBadRange = true ∧
    ∃ a b : ℚ, parse_expression "5,1" = .error (.rangeOrder a b) ∧
      ∀ o : Oracle, runEstimate o "5,1" 0 = .error (.parseErr (.rangeOrder a b)) := by
  have h : (scanItems ("5,1").data).any Item.isBadRange = true := by
    rw [show scanItems ("5,1").data = [Item.range ['5'] [','] ['1']] from rfl]
    simp only [List.any_cons, List.any_nil, Item.isBadRange, parseNum_five, parseNum_one,
      Bool.or_false, decide_eq_true_eq]
    norm_num
  exact ⟨h, range_order_error_before_sampling "5,1" 0 h⟩

/-- One-step equation of `parse_expression` once the table-building loop
has succeeded. -/
theorem parse_expression_after_ok {s : String} {vs : List (String × LitSpec)}
    (hb : buildVars (scanItems s.data) 0 = .ok vs) :
    parse_expression s =
      if (renderItems (scanItems s.data) 0).contains ',' then .error .malformedRange
      else .ok (String.mk (renderItems (scanItems s.data) 0), vs) := by
  unfold parse_expression
  rw [hb]

/-- C7: extraction succeeds only with a comma-free rewritten expression,
and when the table-building loop succeeds but a comma is left in the
rewritten expression, `parse_expression` aborts with MalformedRangeError. -/
theorem leftover_comma_is_malformed (s : String) :
    (∀ e vars, parse_expression s = .ok (e, vars) → e.data.contains ',' = false) ∧
    (∀ vars, buildVars (scanItems s.data) 0 = .ok vars →
      (renderItems (scanItems s.data) 0).contains ',' = true →
      parse_expression s = .error .malformedRange) := by
  constructor
  · intro e vars h
    cases hb : buildVars (scanItems s.data) 0 with
    | error e' =>
      unfold parse_expression at h
      rw [hb] at h
      exact absurd h (by simp)
    | ok vs =>
      rw [parse_expression_after_ok hb] at h
      by_cases hc : (renderItems (scanItems s.data) 0).contains ',' = true
      · rw [if_pos hc] at h
        exact absurd h (by simp)
      · rw [if_neg hc] at h
        injection h with h
        have he : e = String.mk (renderItems (scanItems s.data) 0) :=
          ((Prod.mk.injEq _ _ _ _).mp h.symm).1
        subst he
        exact Bool.not_eq_true _ ▸ hc
  · intro vars hb hc
    rw [parse_expression_after_ok hb, if_pos hc]

/-- Witness for C7 at the spec scenario `"2 * 3,4,5"`: the loop succeeds,
a comma survives substitution, and the parse aborts. -/
theorem leftover_comma_is_malformed_w :
    buildVars (scanItems ("2 * 3,4,5").data) 0 =
      .ok [(varNameStr 0, .scalar 2), (varNameStr 1, .range 3 4), (varNameStr 2, .scalar 5)] ∧
    (renderItems (scanItems ("2 * 3,4,5").data) 0).contains ',' = true ∧
    parse_expression "2 * 3,4,5" = .error .malformedRange := by
  have h34 : ¬((4 : ℚ) < 3) := by norm_num
  have hb : buildVars (scanItems ("2 * 3,4,5").data) 0 =
      .ok [(varNameStr 0, .scalar 2), (varNameStr 1, .range 3 4), (varNameStr 2, .scalar 5)] := by
    rw [show scanItems ("2 * 3,4,5").data =
      [Item.num ['2'], Item.raw ' ', Item.raw '*', Item.raw ' ',
        Item.range ['3'] [','] ['4'], Item.raw ',', Item.num ['5']] from rfl]
    simp [buildVars, parseNum_two, parseNum_three, parseNum_four,
      parseNum_five, h34, Except.map]
  have hc : (renderItems (scanItems ("2 * 3,4,5").data) 0).contains ',' = true := rfl
  exact ⟨hb, hc, (leftover_comma_is_malformed "2 * 3,4,5").2 _ hb hc⟩

theorem npMean_singleton (x : ℝ) : npMean [x] = x := by
  simp [npMean]

theorem npStd_singleton (x : ℝ) : npStd [x] = 0 := by
  simp [npStd, npMean]

theorem npPercentile_singleton (x : ℝ) (q : ℝ) : npPercentile [x] q = x := by
  simp [npPercentile, List.mergeSort]

/-- C5: the statistics reducer returns the arithmetic mean, the population
standard deviation (divisor `n`, not `n−1`: it is nonnegative and its
square is the mean squared deviation about the mean), and the 1st and 99th
percentiles by linear interpolation between ranked samples; it is a total
function of the array (it never fails), and for an array of length 1 it
returns `std_dev = 0` and `ci_low = ci_high =` the single value. -/
theorem stats_reducer_formulas (xs : List ℝ) :
    (reduceStats xs).mean = xs.sum / xs.length ∧
    0 ≤ (reduceStats xs).std_dev ∧
    (reduceStats xs).std_dev ^ 2 = (xs.map fun x => (x - npMean xs) ^ 2).sum / xs.length ∧
    (reduceStats xs).ci_low = npPercentile xs 1 ∧
    (reduceStats xs).ci_high = npPercentile xs 99 ∧
    (∀ x : ℝ, reduceStats [x] = ⟨x, 0, x, x⟩) := by
  refine ⟨rfl, Real.sqrt_nonneg _, ?_, rfl, rfl, fun x => ?_⟩
  · apply Real.sq_sqrt
    apply div_nonneg ?_ (by positivity)
    apply List.sum_nonneg
    intro y hy
    obtain ⟨z, _, rfl⟩ := List.mem_map.mp hy
    positivity
  · show Stats.mk _ _ _ _ = _
    rw [npMean_singleton, npStd_singleton, npPercentile_singleton, npPercentile_singleton]

end Fermi
